import Mathlib

/-!
Shallow embedding of the BB84 protocol-state logic of
`src/scripts/scenes.py` (class `BB84ProtocolScene` and the card class
`QubitCard`).

The animation file interleaves protocol state with rendering calls.  Per the
specification (sections 1 and 9) rendering, camera movement and text layout
are out of scope; the embedding keeps exactly the protocol-relevant state of
the source objects and their mutations:

* `QubitCard.__init__` (lines 21-26): fields `bit_value`, `basis`,
  `is_face_down`, `corrupted`.  There is no `measured` attribute in the
  source.
* `flip_card` (lines 54-67): toggles `is_face_down`; no other field changes.
* the per-card body of `eve_eavesdrops` (lines 200-236) and of
  `bob_measures_qubits` (lines 267-278), as `eveStep` and `bobStep`.
* `basis_comparison` (lines 306-337) and `verify_key` (lines 340-385).
* `construct` (lines 75-97), the round entry point, as the composition of
  the stages in source order.

The hidden global stream of the Python `random` module is modelled as a list
of raw natural draws, threaded explicitly through every stage in the order
the source consumes them (an exhausted stream yields 0; real runs never
exhaust it).  `random.randint(0, 1)` is the parity of a raw draw,
`random.choice(["Z", "X"])` picks by the parity of a raw draw, and
`random.randint(0, m - 1)` is a raw draw reduced mod `m` — except that for
`m = 0` the Python call raises an uncontrolled `ValueError`, modelled by the
`VerifyOutcome.valueError` constructor.  Python list indexing `xs[i]` is
modelled with `List.getD`; every call the source makes is in range.
-/

namespace BB84

/-- Measurement or preparation basis, source values the characters Z and X. -/
inductive Basis
| Z
| X
  deriving DecidableEq

/-- Protocol-relevant state of the source class `QubitCard` (lines 21-26):
`bit_value`, `basis`, the visual face-down flag and the `corrupted` flag.
`__init__` receives `bit_value` and `basis`, defaults `is_face_down` to
`true` and always sets `corrupted := false`.  The class has no `measured`
field. -/
structure QubitCard where
  bit_value : Nat
  basis : Basis
  is_face_down : Bool
  corrupted : Bool
  deriving DecidableEq

/-- `QubitCard(bit_value, basis)` as called at line 166: face down,
not corrupted. -/
def mkQubitCard (bit_value : Nat) (basis : Basis) : QubitCard :=
  ⟨bit_value, basis, true, false⟩

/-- `flip_card` (lines 54-67): toggles the face-down flag, leaves
`bit_value`, `basis` and `corrupted` untouched. -/
def flip_card (c : QubitCard) : QubitCard :=
  { c with is_face_down := !c.is_face_down }

/-- The hidden global stream of the Python `random` module, as the list of
raw values of its successive draws. -/
abbrev RNG := List Nat

/-- One raw draw from the hidden global stream. -/
def drawRand : RNG → Nat × RNG
  | [] => (0, [])
  | x :: r => (x, r)

/-- `random.randint(0, 1)` applied to a raw draw. -/
def randbit (d : Nat) : Nat := d % 2

/-- `random.choice(["Z", "X"])` applied to a raw draw. -/
def randbasis (d : Nat) : Basis := if d % 2 = 0 then Basis.Z else Basis.X

/-- A list comprehension of `n` independent draws, e.g.
`[random.randint(0, 1) for _ in range(num_qubits)]` (line 147) with
`f := randbit`, drawing left to right. -/
def genList {α : Type} (f : Nat → α) : Nat → RNG → List α × RNG
  | 0, r => ([], r)
  | n + 1, r =>
    (f (drawRand r).1 :: (genList f n (drawRand r).2).1,
     (genList f n (drawRand r).2).2)

/-- Per-card body of Eve in `eve_eavesdrops` (lines 200-236): the card is
flipped face up; if `original_basis == eve_basis` the shown `bit_value` is
recorded and nothing else changes, otherwise a fresh bit is drawn, the card
`bit_value` is overwritten, `basis` collapses to `eve_basis`, `corrupted`
is set, and the drawn bit is recorded; finally the card is flipped face
down again.  Returns (recorded result, card afterwards, stream
afterwards). -/
def eveStep (card : QubitCard) (eve_basis : Basis) (r : RNG) :
    Nat × QubitCard × RNG :=
  let c1 := flip_card card
  if card.basis = eve_basis then
    (c1.bit_value, flip_card c1, r)
  else
    ((drawRand r).1 % 2,
     flip_card { c1 with
                  bit_value := (drawRand r).1 % 2
                  basis := eve_basis
                  corrupted := true },
     (drawRand r).2)

/-- Per-card body of Bob in `bob_measures_qubits` (lines 267-278): the card
is flipped face up (and stays so); only when the card basis differs from
Bob's basis AND the card is not corrupted is a fresh bit drawn into
`bit_value`; the recorded result is the card `bit_value` after that.  The
card `basis` and `corrupted` are never written. -/
def bobStep (card : QubitCard) (bob_basis : Basis) (r : RNG) :
    Nat × QubitCard × RNG :=
  let c1 := flip_card card
  if c1.basis ≠ bob_basis ∧ c1.corrupted = false then
    ((drawRand r).1 % 2,
     { c1 with bit_value := (drawRand r).1 % 2 },
     (drawRand r).2)
  else
    (c1.bit_value, c1, r)

/-- The `for i, card in enumerate(qubit_cards)` loop of `eve_eavesdrops`,
applying `eveStep` with the pre-drawn `eve_bases[i]`, collecting
`eve_results` and the mutated cards. -/
def eveLoop : List QubitCard → List Basis → RNG →
    List Nat × List QubitCard × RNG
  | [], _, r => ([], [], r)
  | _ :: _, [], r => ([], [], r)
  | c :: cs, b :: bs, r =>
    ((eveStep c b r).1 :: (eveLoop cs bs (eveStep c b r).2.2).1,
     (eveStep c b r).2.1 :: (eveLoop cs bs (eveStep c b r).2.2).2.1,
     (eveLoop cs bs (eveStep c b r).2.2).2.2)

/-- The corresponding loop of `bob_measures_qubits`. -/
def bobLoop : List QubitCard → List Basis → RNG →
    List Nat × List QubitCard × RNG
  | [], _, r => ([], [], r)
  | _ :: _, [], r => ([], [], r)
  | c :: cs, b :: bs, r =>
    ((bobStep c b r).1 :: (bobLoop cs bs (bobStep c b r).2.2).1,
     (bobStep c b r).2.1 :: (bobLoop cs bs (bobStep c b r).2.2).2.1,
     (bobLoop cs bs (bobStep c b r).2.2).2.2)

/-- `alice_prepares_qubits` (lines 140-173), protocol content: 8 random
bits, 8 random bases, and one `QubitCard(alice_bits[i], alice_bases[i])`
per index.  Returns ((bits, bases, cards), stream). -/
def alice_prepares_qubits (r : RNG) :
    (List Nat × List Basis × List QubitCard) × RNG :=
  let pb := genList randbit 8 r
  let pB := genList randbasis 8 pb.2
  ((pb.1, pB.1, List.zipWith mkQubitCard pb.1 pB.1), pB.2)

/-- `eve_eavesdrops` (lines 189-239): draws `eve_bases` (one per card,
before the loop), then runs the per-card loop.  Returns
((eve_bases, eve_results, cards), stream). -/
def eve_eavesdrops (qubit_cards : List QubitCard) (r : RNG) :
    (List Basis × List Nat × List QubitCard) × RNG :=
  let pB := genList randbasis qubit_cards.length r
  let q := eveLoop qubit_cards pB.1 pB.2
  ((pB.1, q.1, q.2.1), q.2.2)

/-- `bob_measures_qubits` (lines 247-283): draws `bob_bases` (one per
card), then runs the per-card loop.  Returns
((bob_bases, bob_results, cards), stream). -/
def bob_measures_qubits (qubit_cards : List QubitCard) (r : RNG) :
    (List Basis × List Nat × List QubitCard) × RNG :=
  let pB := genList randbasis qubit_cards.length r
  let q := bobLoop qubit_cards pB.1 pB.2
  ((pB.1, q.1, q.2.1), q.2.2)

/-- `basis_comparison` (lines 306-337), protocol content: the loop
`for i in range(len(alice_bases))` appends `i` to `sifted_key_indices`
exactly when `alice_bases[i] == bob_bases[i]`, i.e. an in-order filter of
`range`.  The function takes no randomness source. -/
def basis_comparison (alice_bases bob_bases : List Basis) : List Nat :=
  (List.range alice_bases.length).filter
    (fun i => decide (alice_bases.getD i Basis.Z = bob_bases.getD i Basis.Z))

/-- Outcome of `verify_key`.  The source method only displays its result;
`accepted` carries the `final_key` it builds, `aborted` is the
eavesdropping-detected branch, and `valueError` models the uncaught Python
`ValueError` raised by `random.randint(0, len(alice_sifted) - 1)` when
`alice_sifted` is empty — an uncontrolled failure, not a surfaced
condition; the source has no `InsufficientKeyMaterial` condition of any
kind. -/
inductive VerifyOutcome
| accepted (final_key : List Nat)
| aborted
| valueError
  deriving DecidableEq

/-- `verify_key` (lines 340-385), protocol content: builds
`alice_sifted = [alice_bits[i] for i in sifted_indices]` and
`bob_sifted = [bob_results[i] for i in sifted_indices]`, draws
`test_index = random.randint(0, len(alice_sifted) - 1)` (a `ValueError`
when the sifted key is empty), compares the test bits, and on a match
builds `final_key` by `final_key = alice_sifted` (an alias, not a copy)
followed by `final_key.pop(test_index)` — which therefore also mutates
`alice_sifted` in place.  `eve_results` is passed by the caller but never
read.  Returns (outcome, alice_sifted after the call, bob_sifted after the
call, stream). -/
def verify_key (sifted_indices alice_bits bob_results eve_results : List Nat)
    (r : RNG) : VerifyOutcome × List Nat × List Nat × RNG :=
  let alice_sifted := sifted_indices.map (fun i => alice_bits.getD i 0)
  let bob_sifted := sifted_indices.map (fun i => bob_results.getD i 0)
  if alice_sifted.length = 0 then
    (VerifyOutcome.valueError, alice_sifted, bob_sifted, r)
  else
    let test_index := (drawRand r).1 % alice_sifted.length
    if alice_sifted.getD test_index 0 = bob_sifted.getD test_index 0 then
      (VerifyOutcome.accepted (alice_sifted.eraseIdx test_index),
       alice_sifted.eraseIdx test_index, bob_sifted, (drawRand r).2)
    else
      (VerifyOutcome.aborted, alice_sifted, bob_sifted, (drawRand r).2)

/-- Everything one execution of `construct` computes about the protocol. -/
structure RoundOutput where
  alice_bits : List Nat
  alice_bases : List Basis
  eve_bases : List Basis
  eve_results : List Nat
  bob_bases : List Basis
  bob_results : List Nat
  sifted_key_indices : List Nat
  outcome : VerifyOutcome
  deriving DecidableEq

/-- `construct` (lines 75-97), the round entry point: Alice prepares, Eve
always intercepts, Bob measures the cards as received from Eve, the bases
are compared, and `verify_key` runs on the sifted indices with Alice's
bits and Bob's results.  The method takes no caller inputs — no qubit
count (8 is hard-coded at line 146), no interception flag, no sample size
and no seed; its only varying input is the hidden global random stream. -/
def construct (r : RNG) : RoundOutput × RNG :=
  let pa := alice_prepares_qubits r
  let pe := eve_eavesdrops pa.1.2.2 pa.2
  let pb := bob_measures_qubits pe.1.2.2 pe.2
  let sifted := basis_comparison pa.1.2.1 pb.1.1
  let pv := verify_key sifted pa.1.1 pb.1.2.1 pe.1.2.1 pb.2
  (⟨pa.1.1, pa.1.2.1, pe.1.1, pe.1.2.1, pb.1.1, pb.1.2.1, sifted, pv.1⟩,
   pv.2.2.2)

/-- Two executions of `construct` in one Python process: the second
continues from the hidden global stream state the first left behind. -/
def runTwice (r : RNG) : RoundOutput × RoundOutput :=
  ((construct r).1, (construct (construct r).2).1)

/-! ## Measurement operator: Eve versus Bob (claims C1, C2, C3) -/

/-- C1, counterexample: Eve's and Bob's measurements are not the same
operation.  On the corrupted card (bit 0, basis Z) measured in basis X with
the same stream, Eve re-draws and observes 1 while Bob skips the redraw
(his guard requires the card to be uncorrupted) and observes the stored
0. -/
theorem eveStep_bobStep_differ_on_corrupted :
    (eveStep ⟨0, Basis.Z, true, true⟩ Basis.X [1]).1 ≠
      (bobStep ⟨0, Basis.Z, true, true⟩ Basis.X [1]).1 := by
  decide

/-- C1, amended: given the same card, the same chosen basis and the same
stream, Eve and Bob record the same observed bit and leave the same
`bit_value` provided the card is not corrupted; but Bob's measurement never
collapses the card basis and never writes the corrupted flag, so the two
operations differ on corrupted cards and in the post-measurement state. -/
theorem eveStep_bobStep_agree_uncorrupted (c : QubitCard) (b : Basis)
    (r : RNG) :
    (c.corrupted = false →
      (eveStep c b r).1 = (bobStep c b r).1 ∧
      (eveStep c b r).2.1.bit_value = (bobStep c b r).2.1.bit_value) ∧
    (bobStep c b r).2.1.basis = c.basis ∧
    (bobStep c b r).2.1.corrupted = c.corrupted := by
  obtain ⟨bv, bs, fd, co⟩ := c
  by_cases hb : bs = b <;>
    simp [eveStep, bobStep, flip_card, hb] <;>
    cases co <;> simp

/-- C1, witness. -/
theorem eveStep_bobStep_agree_uncorrupted_witness :
    (QubitCard.mk 0 Basis.Z true false).corrupted = false ∧
    (eveStep ⟨0, Basis.Z, true, false⟩ Basis.X [1]).1 =
      (bobStep ⟨0, Basis.Z, true, false⟩ Basis.X [1]).1 ∧
    (eveStep ⟨0, Basis.Z, true, false⟩ Basis.X [1]).2.1.bit_value =
      (bobStep ⟨0, Basis.Z, true, false⟩ Basis.X [1]).2.1.bit_value :=
  ⟨rfl,
   (eveStep_bobStep_agree_uncorrupted ⟨0, Basis.Z, true, false⟩
      Basis.X [1]).1 rfl⟩

/-- C2, counterexample: measuring the card (bit 1, basis Z, face down, not
corrupted) in its own basis Z returns the exact same card — no field of the
card changes, so no flag of any kind becomes true; indeed the source
`QubitCard` has no `measured` attribute at all (its only flags are
`is_face_down` and `corrupted`). -/
theorem eveStep_same_basis_card_unchanged :
    eveStep ⟨1, Basis.Z, true, false⟩ Basis.Z [7] =
      (1, ⟨1, Basis.Z, true, false⟩, [7]) := by
  decide

/-- C2, amended: when the chosen basis equals the card basis, both Eve's
and Bob's measurements record the card's `bit_value` and leave `bit_value`
and `basis` (and `corrupted`) unchanged; Eve returns the card exactly as it
was, Bob leaves it face up; no `measured` flag becomes true because the
source card has none. -/
theorem measure_same_basis (c : QubitCard) (b : Basis) (r : RNG)
    (h : b = c.basis) :
    eveStep c b r = (c.bit_value, c, r) ∧
    bobStep c b r = (c.bit_value, flip_card c, r) := by
  subst h
  obtain ⟨bv, bs, fd, co⟩ := c
  simp [eveStep, bobStep, flip_card]

/-- C2, witness. -/
theorem measure_same_basis_witness :
    Basis.X = (QubitCard.mk 1 Basis.X true false).basis ∧
    eveStep ⟨1, Basis.X, true, false⟩ Basis.X [2] =
      (1, ⟨1, Basis.X, true, false⟩, [2]) ∧
    bobStep ⟨1, Basis.X, true, false⟩ Basis.X [2] =
      (1, flip_card ⟨1, Basis.X, true, false⟩, [2]) :=
  ⟨rfl, measure_same_basis ⟨1, Basis.X, true, false⟩ Basis.X [2] rfl⟩

/-- C3, counterexample: Bob measures the uncorrupted card (bit 0, basis Z)
in the differing basis X, yet the card basis stays Z — his measurement
never collapses the basis to the chosen one, contradicting the claim for
the receiving party. -/
theorem bobStep_does_not_collapse_basis :
    (bobStep ⟨0, Basis.Z, true, false⟩ Basis.X [1]).2.1.basis ≠ Basis.X := by
  decide

/-- C3, amended: with a chosen basis differing from the card basis, Eve
returns the freshly drawn bit, overwrites `bit_value` with it, collapses
`basis` to the chosen basis and sets `corrupted`; Bob overwrites
`bit_value` with the freshly drawn bit and returns it only when the card is
not corrupted — on a corrupted card he returns the stored bit and draws
nothing — and in no case does Bob change the card basis. -/
theorem measure_diff_basis (c : QubitCard) (b : Basis) (r : RNG)
    (h : b ≠ c.basis) :
    eveStep c b r =
      ((drawRand r).1 % 2,
       ⟨(drawRand r).1 % 2, b, c.is_face_down, true⟩, (drawRand r).2) ∧
    (c.corrupted = false →
      bobStep c b r =
        ((drawRand r).1 % 2,
         ⟨(drawRand r).1 % 2, c.basis, !c.is_face_down, false⟩,
         (drawRand r).2)) ∧
    (c.corrupted = true → bobStep c b r = (c.bit_value, flip_card c, r)) ∧
    (bobStep c b r).2.1.basis = c.basis := by
  obtain ⟨bv, bs, fd, co⟩ := c
  have hb : ¬bs = b := fun hh => h hh.symm
  cases co <;> simp [eveStep, bobStep, flip_card, hb]

/-- C3, witness. -/
theorem measure_diff_basis_witness :
    Basis.X ≠ (QubitCard.mk 0 Basis.Z true false).basis ∧
    eveStep ⟨0, Basis.Z, true, false⟩ Basis.X [3] =
      (1, ⟨1, Basis.X, true, true⟩, []) ∧
    bobStep ⟨0, Basis.Z, true, false⟩ Basis.X [3] =
      (1, ⟨1, Basis.Z, false, false⟩, []) := by
  have h := measure_diff_basis ⟨0, Basis.Z, true, false⟩ Basis.X [3]
    (by decide)
  exact ⟨by decide, by simpa using h.1, by simpa using h.2.1 rfl⟩

/-! ## The corrupted flag (claim C10) -/

/-- C10: a freshly prepared card has `corrupted = false`; Eve's measurement
leaves `corrupted` true exactly when it was already true or her basis
differs from the card basis (so it is set exactly on a differing-basis
measurement and never reset); Bob's measurement preserves both `corrupted`
and `basis`; and flipping a card preserves `corrupted`. -/
theorem corrupted_flag_invariant (bv : Nat) (b0 : Basis) (c : QubitCard)
    (b : Basis) (r : RNG) :
    (mkQubitCard bv b0).corrupted = false ∧
    (eveStep c b r).2.1.corrupted = (c.corrupted || decide (c.basis ≠ b)) ∧
    (bobStep c b r).2.1.corrupted = c.corrupted ∧
    (bobStep c b r).2.1.basis = c.basis ∧
    (flip_card c).corrupted = c.corrupted := by
  obtain ⟨cv, cb, fd, co⟩ := c
  by_cases hb : cb = b <;> cases co <;>
    simp [mkQubitCard, eveStep, bobStep, flip_card, hb]

/-! ## Sifting (claim C4) -/

/-- C4: for basis sequences of equal length n, `basis_comparison` keeps
exactly the indices i < n where the bases agree, in strictly ascending
order (it takes no randomness source, so it is a deterministic function of
its two arguments), and returns the empty list when no index matches. -/
theorem basis_comparison_spec (a b : List Basis) (n i : Nat)
    (ha : a.length = n) (hb : b.length = n) :
    (i ∈ basis_comparison a b ↔
      i < n ∧ a.getD i Basis.Z = b.getD i Basis.Z) ∧
    List.Pairwise (fun x y => x < y) (basis_comparison a b) ∧
    ((∀ j, j < n → a.getD j Basis.Z ≠ b.getD j Basis.Z) →
      basis_comparison a b = []) := by
  subst ha
  refine ⟨?_, ?_, ?_⟩
  · simp [basis_comparison, List.mem_filter, List.mem_range]
  · exact (List.pairwise_lt_range _).filter _
  · intro hno
    refine List.filter_eq_nil_iff.mpr ?_
    intro j hj
    simp only [List.mem_range] at hj
    simpa using hno j hj

/-- C4, witness: on Alice bases [Z, X] and Bob bases [Z, Z] (length 2) the
sifted indices are exactly [0]. -/
theorem basis_comparison_spec_witness :
    ([Basis.Z, Basis.X].length = 2 ∧ [Basis.Z, Basis.Z].length = 2) ∧
    ((0 ∈ basis_comparison [Basis.Z, Basis.X] [Basis.Z, Basis.Z] ↔
        0 < 2 ∧ [Basis.Z, Basis.X].getD 0 Basis.Z =
          [Basis.Z, Basis.Z].getD 0 Basis.Z) ∧
     List.Pairwise (fun x y => x < y)
        (basis_comparison [Basis.Z, Basis.X] [Basis.Z, Basis.Z]) ∧
     ((∀ j, j < 2 → [Basis.Z, Basis.X].getD j Basis.Z ≠
          [Basis.Z, Basis.Z].getD j Basis.Z) →
        basis_comparison [Basis.Z, Basis.X] [Basis.Z, Basis.Z] = [])) :=
  ⟨⟨rfl, rfl⟩,
   basis_comparison_spec [Basis.Z, Basis.X] [Basis.Z, Basis.Z] 2 0 rfl rfl⟩

/-! ## Verification (claims C5, C6, C9) -/

/-- Helper: removing position t commutes with mapping over the list. -/
theorem eraseIdx_map_comm {α β : Type} (f : α → β) :
    ∀ (l : List α) (t : Nat), (l.map f).eraseIdx t = (l.eraseIdx t).map f
  | [], _ => rfl
  | _ :: _, 0 => rfl
  | x :: xs, t + 1 => by
    simp only [List.map_cons, List.eraseIdx_cons_succ, List.map_cons]
    rw [eraseIdx_map_comm f xs t]

/-- C5: a verification run on a non-empty sifted key (the source draws a
single test index, so the sample size is the constant 1 and any run
requires 1 ≤ length) aborts exactly when Alice's and Bob's bits disagree at
the sampled sifted position, and on agreement accepts with the final key
being Alice's bits at the sifted indices minus the sampled one, in
ascending index order, of length exactly `sifted.length - 1`. -/
theorem verify_key_spec (sifted alice_bits bob_results ev : List Nat)
    (r : RNG) (t : Nat) (aliceS bobS : List Nat)
    (hA : aliceS = sifted.map (fun i => alice_bits.getD i 0))
    (hB : bobS = sifted.map (fun i => bob_results.getD i 0))
    (ht : t = (drawRand r).1 % sifted.length)
    (hne : sifted ≠ []) :
    ((verify_key sifted alice_bits bob_results ev r).1 =
        VerifyOutcome.aborted ↔ ¬aliceS.getD t 0 = bobS.getD t 0) ∧
    (aliceS.getD t 0 = bobS.getD t 0 →
      (verify_key sifted alice_bits bob_results ev r).1 =
        VerifyOutcome.accepted
          ((sifted.eraseIdx t).map (fun i => alice_bits.getD i 0)) ∧
      ((sifted.eraseIdx t).map (fun i => alice_bits.getD i 0)).length =
        sifted.length - 1) := by
  subst hA hB ht
  have hlen : (sifted.map (fun i => alice_bits.getD i 0)).length =
      sifted.length := List.length_map _ _
  have hpos : 0 < sifted.length := List.length_pos.mpr hne
  have hnz : ¬(sifted.map (fun i => alice_bits.getD i 0)).length = 0 := by
    omega
  have htlt : (drawRand r).1 % sifted.length < sifted.length :=
    Nat.mod_lt _ hpos
  simp only [verify_key]
  rw [if_neg hnz, hlen]
  by_cases hc :
      (sifted.map (fun i => alice_bits.getD i 0)).getD
          ((drawRand r).1 % sifted.length) 0 =
        (sifted.map (fun i => bob_results.getD i 0)).getD
          ((drawRand r).1 % sifted.length) 0
  · rw [if_pos hc]
    refine ⟨iff_of_false (by simp) (not_not_intro hc), fun _ => ⟨?_, ?_⟩⟩
    · show VerifyOutcome.accepted _ = VerifyOutcome.accepted _
      rw [eraseIdx_map_comm]
    · rw [List.length_map, List.length_eraseIdx_of_lt htlt]
  · rw [if_neg hc]
    exact ⟨iff_of_true rfl hc, fun hcc => absurd hcc hc⟩

/-- C5, witness: sifted indices [0, 2], Alice bits [1, 0, 1], Bob results
[1, 1, 1], one raw draw 3: the test index is 1, both sifted keys read 1
there, and the run accepts with final key [1] of length 2 - 1. -/
theorem verify_key_spec_witness :
    (([1, 1] : List Nat) = [0, 2].map (fun i => List.getD [1, 0, 1] i 0)) ∧
    (([1, 1] : List Nat) = [0, 2].map (fun i => List.getD [1, 1, 1] i 0)) ∧
    (1 = (drawRand [3]).1 % ([0, 2] : List Nat).length) ∧
    (([0, 2] : List Nat) ≠ []) ∧
    (((verify_key [0, 2] [1, 0, 1] [1, 1, 1] [] [3]).1 =
        VerifyOutcome.aborted ↔
        ¬List.getD ([1, 1] : List Nat) 1 0 = List.getD ([1, 1] : List Nat) 1 0) ∧
     (List.getD ([1, 1] : List Nat) 1 0 = List.getD ([1, 1] : List Nat) 1 0 →
       (verify_key [0, 2] [1, 0, 1] [1, 1, 1] [] [3]).1 =
         VerifyOutcome.accepted
           ((([0, 2] : List Nat).eraseIdx 1).map
             (fun i => List.getD [1, 0, 1] i 0)) ∧
       ((([0, 2] : List Nat).eraseIdx 1).map
           (fun i => List.getD [1, 0, 1] i 0)).length =
         ([0, 2] : List Nat).length - 1)) :=
  ⟨by decide, by decide, by decide, by decide,
   verify_key_spec [0, 2] [1, 0, 1] [1, 1, 1] [] [3] 1 [1, 1] [1, 1]
     (by decide) (by decide) (by decide) (by decide)⟩

/-- C6, counterexample: on an empty sifted index list (the scenario of the
claim, with the source's fixed sample of one bit) `verify_key` ends in the
outcome modelling the uncaught `ValueError` from
`random.randint(0, -1)` — an uncontrolled failure, not a recoverable
`InsufficientKeyMaterial` condition (no such condition exists anywhere in
the source). -/
theorem verify_key_empty_sifted_value_error :
    verify_key [] [] [] [] [5] =
      (VerifyOutcome.valueError, [], [], [5]) := by
  decide

/-- C6, amended: for every call with an empty sifted index list — the only
way the source's fixed sample of one can exceed the sifted-key length —
`verify_key` fails with the uncontrolled `ValueError` of
`random.randint(0, -1)` before drawing anything, leaving both sifted keys
empty and the stream untouched; the source surfaces no
`InsufficientKeyMaterial` condition. -/
theorem verify_key_empty_sifted (alice_bits bob_results ev : List Nat)
    (r : RNG) :
    verify_key [] alice_bits bob_results ev r =
      (VerifyOutcome.valueError, [], [], r) := rfl

/-- C9: at the failing input (sifted indices [0, 1], Alice bits [0, 1],
Bob results [0, 1], test-index draw 0) the sampled bits match and
`verify_key` builds the final key through the alias
`final_key = alice_sifted` followed by `final_key.pop(test_index)`, so the
previously computed sifted key `alice_sifted` is itself mutated from
[0, 1] to [1] — it does not stay unchanged (Bob's sifted key does). -/
theorem verify_key_mutates_alice_sifted :
    ([0, 1].map (fun i => List.getD ([0, 1] : List Nat) i 0)
        = ([0, 1] : List Nat)) ∧
    (verify_key [0, 1] [0, 1] [0, 1] [] [0]).2.1 = [1] ∧
    (verify_key [0, 1] [0, 1] [0, 1] [] [0]).2.2.1 = [0, 1] ∧
    (verify_key [0, 1] [0, 1] [0, 1] [] [0]).1 =
      VerifyOutcome.accepted [1] ∧
    (([1] : List Nat) ≠ [0, 1]) := by
  decide

/-! ## The round entry point and the hidden random stream (claim C7)

`construct` takes no caller inputs; all its variation comes from the hidden
global random stream.  One round consumes at most 49 raw draws (8 bits,
8 Alice bases, 8 Eve bases, at most 8 Eve redraws, 8 Bob bases, at most
8 Bob redraws, 1 test index), so the round outputs are determined by the
first 49 values of the stream — but two successive executions read
successive parts of the stream and differ in general. -/

/-- Two stream states agree on their next k raw draws. -/
def Agree (k : Nat) (s1 s2 : RNG) : Prop := s1.take k = s2.take k

theorem agree_mono {j k : Nat} (h : j ≤ k) {s1 s2 : RNG}
    (ha : Agree k s1 s2) : Agree j s1 s2 := by
  unfold Agree at *
  have h2 := congrArg (List.take j) ha
  simpa [List.take_take, Nat.min_eq_left h] using h2

theorem drawRand_agree {k : Nat} {s1 s2 : RNG} (h : Agree (k + 1) s1 s2) :
    (drawRand s1).1 = (drawRand s2).1 ∧
      Agree k (drawRand s1).2 (drawRand s2).2 := by
  unfold Agree at *
  match s1, s2 with
  | [], [] => exact ⟨rfl, rfl⟩
  | [], y :: t2 => simp at h
  | x :: t1, [] => simp at h
  | x :: t1, y :: t2 =>
    simp only [List.take_succ_cons, List.cons.injEq] at h
    exact ⟨h.1, h.2⟩

theorem genList_length {α : Type} (f : Nat → α) :
    ∀ (n : Nat) (r : RNG), (genList f n r).1.length = n
  | 0, _ => rfl
  | n + 1, r => by simp [genList, genList_length f n]

theorem genList_agree {α : Type} (f : Nat → α) :
    ∀ (n k : Nat) {s1 s2 : RNG}, Agree (n + k) s1 s2 →
      (genList f n s1).1 = (genList f n s2).1 ∧
        Agree k (genList f n s1).2 (genList f n s2).2
  | 0, k, s1, s2, h => ⟨rfl, by simpa using h⟩
  | n + 1, k, s1, s2, h => by
    have h1 : Agree (n + k + 1) s1 s2 := by
      have he : n + 1 + k = n + k + 1 := by omega
      rwa [he] at h
    obtain ⟨hd, ht⟩ := drawRand_agree h1
    obtain ⟨hl, hr⟩ := genList_agree f n k ht
    exact ⟨by simp [genList, hd, hl], by simpa [genList] using hr⟩

theorem eveStep_agree {k : Nat} (c : QubitCard) (b : Basis) {s1 s2 : RNG}
    (h : Agree (k + 1) s1 s2) :
    (eveStep c b s1).1 = (eveStep c b s2).1 ∧
      (eveStep c b s1).2.1 = (eveStep c b s2).2.1 ∧
      Agree k (eveStep c b s1).2.2 (eveStep c b s2).2.2 := by
  obtain ⟨hd, ht⟩ := drawRand_agree h
  by_cases hb : c.basis = b
  · simpa [eveStep, hb] using agree_mono (Nat.le_succ k) h
  · simpa [eveStep, hb, hd] using ht

theorem bobStep_agree {k : Nat} (c : QubitCard) (b : Basis) {s1 s2 : RNG}
    (h : Agree (k + 1) s1 s2) :
    (bobStep c b s1).1 = (bobStep c b s2).1 ∧
      (bobStep c b s1).2.1 = (bobStep c b s2).2.1 ∧
      Agree k (bobStep c b s1).2.2 (bobStep c b s2).2.2 := by
  obtain ⟨hd, ht⟩ := drawRand_agree h
  by_cases hb : (flip_card c).basis ≠ b ∧ (flip_card c).corrupted = false
  · simpa [bobStep, hb, hd] using ht
  · simpa [bobStep, hb] using agree_mono (Nat.le_succ k) h

theorem eveLoop_agree :
    ∀ (cs : List QubitCard) (bs : List Basis) (k : Nat) {s1 s2 : RNG},
      Agree (cs.length + k) s1 s2 →
      (eveLoop cs bs s1).1 = (eveLoop cs bs s2).1 ∧
        (eveLoop cs bs s1).2.1 = (eveLoop cs bs s2).2.1 ∧
        Agree k (eveLoop cs bs s1).2.2 (eveLoop cs bs s2).2.2
  | [], bs, k, s1, s2, h => by
    cases bs <;> exact ⟨rfl, rfl, by simpa using h⟩
  | c :: cs, [], k, s1, s2, h =>
    ⟨rfl, rfl, agree_mono (by simp) h⟩
  | c :: cs, b :: bs, k, s1, s2, h => by
    have h1 : Agree (cs.length + k + 1) s1 s2 := by
      have he : (c :: cs).length + k = cs.length + k + 1 := by
        simp [Nat.add_comm, Nat.add_assoc, Nat.add_left_comm]
      rwa [he] at h
    obtain ⟨ho, hc, ht⟩ := eveStep_agree c b h1
    obtain ⟨ho2, hc2, ht2⟩ := eveLoop_agree cs bs k ht
    refine ⟨?_, ?_, ?_⟩
    · simp only [eveLoop, ho, hc]
      rw [show (eveStep c b s1).2.2 = (eveStep c b s1).2.2 from rfl]
      simp [ho2]
    · simp only [eveLoop, ho, hc]
      simp [hc2]
    · simpa only [eveLoop] using ht2

theorem bobLoop_agree :
    ∀ (cs : List QubitCard) (bs : List Basis) (k : Nat) {s1 s2 : RNG},
      Agree (cs.length + k) s1 s2 →
      (bobLoop cs bs s1).1 = (bobLoop cs bs s2).1 ∧
        (bobLoop cs bs s1).2.1 = (bobLoop cs bs s2).2.1 ∧
        Agree k (bobLoop cs bs s1).2.2 (bobLoop cs bs s2).2.2
  | [], bs, k, s1, s2, h => by
    cases bs <;> exact ⟨rfl, rfl, by simpa using h⟩
  | c :: cs, [], k, s1, s2, h =>
    ⟨rfl, rfl, agree_mono (by simp) h⟩
  | c :: cs, b :: bs, k, s1, s2, h => by
    have h1 : Agree (cs.length + k + 1) s1 s2 := by
      have he : (c :: cs).length + k = cs.length + k + 1 := by
        simp [Nat.add_comm, Nat.add_assoc, Nat.add_left_comm]
      rwa [he] at h
    obtain ⟨ho, hc, ht⟩ := bobStep_agree c b h1
    obtain ⟨ho2, hc2, ht2⟩ := bobLoop_agree cs bs k ht
    refine ⟨?_, ?_, ?_⟩
    · simp only [bobLoop, ho, hc]
      simp [ho2]
    · simp only [bobLoop, ho, hc]
      simp [hc2]
    · simpa only [bobLoop] using ht2

theorem alice_prepares_qubits_agree {k : Nat} {s1 s2 : RNG}
    (h : Agree (16 + k) s1 s2) :
    (alice_prepares_qubits s1).1 = (alice_prepares_qubits s2).1 ∧
      Agree k (alice_prepares_qubits s1).2 (alice_prepares_qubits s2).2 := by
  have h1 : Agree (8 + (8 + k)) s1 s2 := by
    have he : 16 + k = 8 + (8 + k) := by omega
    rwa [he] at h
  obtain ⟨hb, h2⟩ := genList_agree randbit 8 (8 + k) h1
  obtain ⟨hB, h3⟩ := genList_agree randbasis 8 k h2
  exact ⟨by simp only [alice_prepares_qubits]; rw [hb, hB],
    by simpa only [alice_prepares_qubits] using h3⟩

theorem alice_cards_length (r : RNG) :
    (alice_prepares_qubits r).1.2.2.length = 8 := by
  simp [alice_prepares_qubits, genList_length]

theorem eve_eavesdrops_agree {k : Nat} (cards : List QubitCard)
    (hlen : cards.length = 8) {s1 s2 : RNG} (h : Agree (16 + k) s1 s2) :
    (eve_eavesdrops cards s1).1 = (eve_eavesdrops cards s2).1 ∧
      Agree k (eve_eavesdrops cards s1).2 (eve_eavesdrops cards s2).2 := by
  have h1 : Agree (cards.length + (cards.length + k)) s1 s2 := by
    rw [hlen]
    have he : 16 + k = 8 + (8 + k) := by omega
    rwa [he] at h
  obtain ⟨hB, h2⟩ := genList_agree randbasis cards.length (cards.length + k) h1
  obtain ⟨ho, hc, h3⟩ :=
    eveLoop_agree cards (genList randbasis cards.length s1).1 k h2
  constructor
  · simp only [eve_eavesdrops]
    rw [← hB]
    rw [ho, hc]
  · simp only [eve_eavesdrops]
    rw [← hB]
    exact h3

theorem eveLoop_cards_length :
    ∀ (cs : List QubitCard) (bs : List Basis) (r : RNG),
      bs.length = cs.length → (eveLoop cs bs r).2.1.length = cs.length
  | [], _, _, _ => by simp [eveLoop]
  | c :: cs, [], r, h => by simp at h
  | c :: cs, b :: bs, r, h => by
    simp only [List.length_cons, Nat.succ.injEq] at h
    simp [eveLoop, eveLoop_cards_length cs bs _ h]

theorem bobLoop_cards_length :
    ∀ (cs : List QubitCard) (bs : List Basis) (r : RNG),
      bs.length = cs.length → (bobLoop cs bs r).2.1.length = cs.length
  | [], _, _, _ => by simp [bobLoop]
  | c :: cs, [], r, h => by simp at h
  | c :: cs, b :: bs, r, h => by
    simp only [List.length_cons, Nat.succ.injEq] at h
    simp [bobLoop, bobLoop_cards_length cs bs _ h]

theorem eve_cards_length (cards : List QubitCard) (r : RNG) :
    (eve_eavesdrops cards r).1.2.2.length = cards.length := by
  simp only [eve_eavesdrops]
  exact eveLoop_cards_length _ _ _ (genList_length _ _ _)

theorem bob_measures_qubits_agree {k : Nat} (cards : List QubitCard)
    (hlen : cards.length = 8) {s1 s2 : RNG} (h : Agree (16 + k) s1 s2) :
    (bob_measures_qubits cards s1).1 = (bob_measures_qubits cards s2).1 ∧
      Agree k (bob_measures_qubits cards s1).2
        (bob_measures_qubits cards s2).2 := by
  have h1 : Agree (cards.length + (cards.length + k)) s1 s2 := by
    rw [hlen]
    have he : 16 + k = 8 + (8 + k) := by omega
    rwa [he] at h
  obtain ⟨hB, h2⟩ := genList_agree randbasis cards.length (cards.length + k) h1
  obtain ⟨ho, hc, h3⟩ :=
    bobLoop_agree cards (genList randbasis cards.length s1).1 k h2
  constructor
  · simp only [bob_measures_qubits]
    rw [← hB]
    rw [ho, hc]
  · simp only [bob_measures_qubits]
    rw [← hB]
    exact h3

theorem verify_key_agree {k : Nat} (sifted alice_bits bob_results ev :
    List Nat) {s1 s2 : RNG} (h : Agree (k + 1) s1 s2) :
    (verify_key sifted alice_bits bob_results ev s1).1 =
      (verify_key sifted alice_bits bob_results ev s2).1 ∧
      Agree k (verify_key sifted alice_bits bob_results ev s1).2.2.2
        (verify_key sifted alice_bits bob_results ev s2).2.2.2 := by
  obtain ⟨hd, ht⟩ := drawRand_agree h
  by_cases hz : sifted = []
  · subst hz
    exact ⟨rfl, agree_mono (Nat.le_succ k) h⟩
  · have hz2 : ¬(sifted.map (fun i => alice_bits.getD i 0)).length = 0 := by
      simpa [List.length_eq_zero] using hz
    simp only [verify_key]
    rw [if_neg hz2, if_neg hz2, hd]
    by_cases hc :
        (sifted.map (fun i => alice_bits.getD i 0)).getD
            ((drawRand s2).1 %
              (sifted.map (fun i => alice_bits.getD i 0)).length) 0 =
          (sifted.map (fun i => bob_results.getD i 0)).getD
            ((drawRand s2).1 %
              (sifted.map (fun i => alice_bits.getD i 0)).length) 0
    · rw [if_pos hc, if_pos hc]
      exact ⟨rfl, ht⟩
    · rw [if_neg hc, if_neg hc]
      exact ⟨rfl, ht⟩

/-- C7, counterexample: from the concrete hidden global stream
1, 0, 0, ... two successive executions of `construct` produce different
outputs: the first reads Alice bits 1,0,0,0,0,0,0,0 and the second,
continuing on the stream the first left behind, reads all-zero Alice
bits.  Nothing in the entry point accepts a seed (or any other input) that
could make the two runs coincide. -/
theorem runTwice_runs_differ :
    (runTwice (1 :: List.replicate 99 0)).1 ≠
      (runTwice (1 :: List.replicate 99 0)).2 := by
  decide

/-- C7, amended: the entry point takes no (n, intercept, sample_size, seed)
inputs — the qubit count is hard-coded to 8 and interception always
happens — and it reads the hidden global random stream, so two successive
executions differ in general; what does hold is that a round is a function
of a bounded part of that hidden stream: any two stream states that agree
on their next 49 raw draws yield identical round outputs. -/
theorem construct_determined_by_49_draws (s1 s2 : RNG)
    (h : List.take 49 s1 = List.take 49 s2) :
    (construct s1).1 = (construct s2).1 := by
  have h49 : Agree 49 s1 s2 := h
  have h49e : Agree (16 + 33) s1 s2 := by
    have he : (49 : Nat) = 16 + 33 := by omega
    rwa [he] at h49
  obtain ⟨ha, h33⟩ := alice_prepares_qubits_agree h49e
  have h33e : Agree (16 + 17) (alice_prepares_qubits s1).2
      (alice_prepares_qubits s2).2 := by
    have he : (33 : Nat) = 16 + 17 := by omega
    rwa [he] at h33
  obtain ⟨he2, h17⟩ := eve_eavesdrops_agree (alice_prepares_qubits s1).1.2.2
    (alice_cards_length s1) h33e
  have h17e : Agree (16 + 1)
      (eve_eavesdrops (alice_prepares_qubits s1).1.2.2
        (alice_prepares_qubits s1).2).2
      (eve_eavesdrops (alice_prepares_qubits s1).1.2.2
        (alice_prepares_qubits s2).2).2 := by
    have he : (17 : Nat) = 16 + 1 := by omega
    rwa [he] at h17
  have helen :
      (eve_eavesdrops (alice_prepares_qubits s1).1.2.2
        (alice_prepares_qubits s1).2).1.2.2.length = 8 := by
    rw [eve_cards_length, alice_cards_length]
  obtain ⟨hb2, h1⟩ := bob_measures_qubits_agree
    (eve_eavesdrops (alice_prepares_qubits s1).1.2.2
      (alice_prepares_qubits s1).2).1.2.2 helen h17e
  have h1e : Agree (0 + 1)
      (bob_measures_qubits
        (eve_eavesdrops (alice_prepares_qubits s1).1.2.2
          (alice_prepares_qubits s1).2).1.2.2
        (eve_eavesdrops (alice_prepares_qubits s1).1.2.2
          (alice_prepares_qubits s1).2).2).2
      (bob_measures_qubits
        (eve_eavesdrops (alice_prepares_qubits s1).1.2.2
          (alice_prepares_qubits s1).2).1.2.2
        (eve_eavesdrops (alice_prepares_qubits s1).1.2.2
          (alice_prepares_qubits s2).2).2).2 := by
    simpa using h1
  simp only [construct]
  rw [← ha, ← he2, ← hb2]
  obtain ⟨hv, _⟩ := verify_key_agree
    (basis_comparison (alice_prepares_qubits s1).1.2.1
      (bob_measures_qubits
        (eve_eavesdrops (alice_prepares_qubits s1).1.2.2
          (alice_prepares_qubits s1).2).1.2.2
        (eve_eavesdrops (alice_prepares_qubits s1).1.2.2
          (alice_prepares_qubits s1).2).2).1.1)
    (alice_prepares_qubits s1).1.1
    (bob_measures_qubits
      (eve_eavesdrops (alice_prepares_qubits s1).1.2.2
        (alice_prepares_qubits s1).2).1.2.2
      (eve_eavesdrops (alice_prepares_qubits s1).1.2.2
        (alice_prepares_qubits s1).2).2).1.2.1
    (eve_eavesdrops (alice_prepares_qubits s1).1.2.2
      (alice_prepares_qubits s1).2).1.2.1 h1e
  rw [hv]

/-- C7, witness: the streams of sixty ones and of sixty ones followed by
5, 7 agree on their first 49 draws, so the two rounds coincide. -/
theorem construct_determined_by_49_draws_witness :
    List.take 49 (List.replicate 60 1) =
      List.take 49 (List.replicate 60 1 ++ [5, 7]) ∧
    (construct (List.replicate 60 1)).1 =
      (construct (List.replicate 60 1 ++ [5, 7])).1 :=
  ⟨by decide,
   construct_determined_by_49_draws (List.replicate 60 1)
     (List.replicate 60 1 ++ [5, 7]) (by decide)⟩

end BB84
